import Mathlib

/-!
Verification development for the openai-nodejs client library.

The library wraps a remote HTTP API and exposes a local byte-pair-encoding
(BPE) tokenizer through the client methods encode / decode / tokens
(src/src/index.js, lines 575-616).  The wrapper methods delegate the BPE
algorithm itself to the gpt-3-encoder package, whose implementation is not
part of this repository's sources; the algorithm is therefore modelled here
from the specification (spec.md sections 3, 4.2-4.4, 7, 9), parameterized by
the vocabulary and merge-rank tables (which the spec treats as generated data,
not logic).  Text is modelled as its UTF-8 byte sequence: a `List Nat` with
every entry below 256.  JavaScript string values appearing in request bodies
are modelled as lists of characters.
-/

/-- A BPE symbol: a sequence of remapped Unicode code points. -/
abbrev TokSym := List Nat

/-- Vocabulary: finite association list from symbol to integer token id,
bijective on its domain (spec section 3). -/
abbrev Vocab := List (TokSym × Nat)

/-- Merge-rank table: association list from an ordered pair of symbols to a
priority; lower priority merges earlier (spec section 3). -/
abbrev Ranks := List ((TokSym × TokSym) × Nat)

/-- Modelled from the spec: a byte is printable when it lies in the visible
ranges that the byte-to-unicode map leaves unchanged (spec section 9). -/
def bytePrintable (b : Nat) : Prop :=
  (33 ≤ b ∧ b ≤ 126) ∨ (161 ≤ b ∧ b ≤ 172) ∨ (174 ≤ b ∧ b ≤ 255)

instance (b : Nat) : Decidable (bytePrintable b) := by
  unfold bytePrintable
  infer_instance

/-- Modelled from the spec: the byte-to-unicode bijection leaves printable
bytes unchanged and sends the remaining 68 bytes, in increasing byte order, to
the reserved range starting at code point 256 (spec sections 3 and 9).  The
non-printable bytes are 0-32, 127-160 and 173. -/
def byteToUnicode (b : Nat) : Nat :=
  if bytePrintable b then b
  else if b ≤ 32 then 256 + b
  else if b ≤ 160 then 289 + (b - 127)
  else 323

/-- Modelled from the spec: the inverse direction of the byte-to-unicode
bijection, used by the decoder to recover raw bytes (spec section 4.3). -/
def unicodeToByte (c : Nat) : Nat :=
  if c < 256 then c
  else if c ≤ 288 then c - 256
  else if c ≤ 322 then (c - 289) + 127
  else 173

/-- Modelled from the spec: character class of a byte for the pre-tokenization
pattern, distinguishing letters, digits, whitespace and everything else (spec
section 3 describes the pattern as splitting into words, numbers, punctuation
runs and whitespace runs). -/
def byteClass (b : Nat) : Nat :=
  if (65 ≤ b && b ≤ 90) || (97 ≤ b && b ≤ 122) then 0
  else if 48 ≤ b && b ≤ 57 then 1
  else if b == 32 || b == 9 || b == 10 || b == 11 || b == 12 || b == 13 then 2
  else 3

/-- Modelled from the spec: pre-tokenization splits the byte string into an
ordered sequence of chunks, maximal runs of a single character class; chunk
boundaries are never crossed by merges (spec section 4.2 step 1).  The
contraction special cases of the reference pattern are a refinement the spec
does not pin down and are not modelled. -/
def splitRuns : List Nat → List (List Nat)
  | [] => []
  | b :: rest =>
    match splitRuns rest with
    | (c :: cs) :: groups =>
      if byteClass b == byteClass c then (b :: c :: cs) :: groups
      else [b] :: (c :: cs) :: groups
    | groups => [b] :: groups

/-- Lookup of a symbol's token id in the vocabulary (first matching entry). -/
def lookupId : Vocab → TokSym → Option Nat
  | [], _ => none
  | (s, i) :: rest, sym => if s == sym then some i else lookupId rest sym

/-- Reverse lookup of a token id's symbol in the vocabulary. -/
def lookupSym : Vocab → Nat → Option TokSym
  | [], _ => none
  | (s, i) :: rest, id => if i == id then some s else lookupSym rest id

/-- Rank of an adjacent symbol pair in the merge-rank table. -/
def rankOf : Ranks → TokSym × TokSym → Option Nat
  | [], _ => none
  | (q, r) :: rest, p => if q == p then some r else rankOf rest p

/-- All adjacent pairs of a symbol sequence, in left-to-right order. -/
def adjPairs : List TokSym → List (TokSym × TokSym)
  | a :: b :: rest => (a, b) :: adjPairs (b :: rest)
  | _ => []

/-- Modelled from the spec: scan the candidate pairs left to right keeping the
one of lowest rank; on equal rank the earlier (leftmost) pair is kept (spec
section 4.2 step 3 and the section 9 tie-break note). -/
def bestPairAux (ranks : Ranks) :
    List (TokSym × TokSym) → Option ((TokSym × TokSym) × Nat) → Option ((TokSym × TokSym) × Nat)
  | [], acc => acc
  | p :: ps, acc =>
    match rankOf ranks p, acc with
    | none, _ => bestPairAux ranks ps acc
    | some r, none => bestPairAux ranks ps (some (p, r))
    | some r, some (q, rq) =>
      if r < rq then bestPairAux ranks ps (some (p, r))
      else bestPairAux ranks ps (some (q, rq))

/-- Modelled from the spec: among all adjacent pairs present in the merge-rank
table, the one with the lowest (earliest) priority, if any (spec section 4.2
step 3). -/
def bestPair (ranks : Ranks) (syms : List TokSym) : Option (TokSym × TokSym) :=
  (bestPairAux ranks (adjPairs syms) none).map Prod.fst

/-- Modelled from the spec: merge every non-overlapping occurrence of the
selected pair into a single combined symbol, left to right, resuming after
each merged symbol (spec section 4.2 step 3). -/
def mergePair (p : TokSym × TokSym) : List TokSym → List TokSym
  | [] => []
  | [a] => [a]
  | a :: b :: rest =>
    if a == p.1 && b == p.2 then (a ++ b) :: mergePair p rest
    else a :: mergePair p (b :: rest)

/-- Modelled from the spec: the iterative greedy merge loop; repeat until no
adjacent pair appears in the merge-rank table (spec section 4.2 step 3).  Fuel
bounds the iteration; each successful merge strictly shortens the sequence, so
fuel equal to the initial length always suffices. -/
def bpeRun (ranks : Ranks) : Nat → List TokSym → List TokSym
  | 0, syms => syms
  | fuel + 1, syms =>
    match bestPair ranks syms with
    | none => syms
    | some p => bpeRun ranks fuel (mergePair p syms)

/-- Errors of the tokenizer model (spec section 7): an integrity error is the
fatal kind (a merged symbol with no vocabulary entry, indicating a corrupted
table); an unknown token id is the distinct, recoverable, caller-correctable
input-error kind raised by decode. -/
inductive TokenizerError where
  | integrityError (sym : TokSym)
  | unknownTokenId (id : Nat)
deriving DecidableEq

/-- Effectful map over a list in the Except monad, stopping at the first
error; spelled out concretely so every equation is definitional. -/
def mapMExcept {α β : Type} (f : α → Except TokenizerError β) :
    List α → Except TokenizerError (List β)
  | [] => .ok []
  | a :: as =>
    match f a with
    | .error e => .error e
    | .ok b =>
      match mapMExcept f as with
      | .error e => .error e
      | .ok bs => .ok (b :: bs)

/-- Concatenation of a list of lists. -/
def concatAll {α : Type} : List (List α) → List α
  | [] => []
  | l :: ls => l ++ concatAll ls

/-- Modelled from the spec: vocabulary lookup of one final symbol; a missing
entry is a fatal integrity error, not a user input error (spec section 4.2
step 4). -/
def encodeOne (vocab : Vocab) (sym : TokSym) : Except TokenizerError Nat :=
  match lookupId vocab sym with
  | some id => .ok id
  | none => .error (.integrityError sym)

/-- Modelled from the spec: encode one pre-tokenization chunk; remap each raw
byte through the byte-to-unicode map into a single-character symbol, run the
greedy merge loop, and look every final symbol up in the vocabulary (spec
section 4.2 steps 2-4). -/
def encodeChunk (vocab : Vocab) (ranks : Ranks) (chunk : List Nat) :
    Except TokenizerError (List Nat) :=
  let syms := chunk.map (fun b => [byteToUnicode b])
  mapMExcept (encodeOne vocab) (bpeRun ranks syms.length syms)

/-- Modelled from the spec: the full encoder; split the text into chunks,
encode each chunk independently, and concatenate the id sequences preserving
chunk order (spec section 4.2 steps 1 and 5). -/
def encode (vocab : Vocab) (ranks : Ranks) (s : List Nat) :
    Except TokenizerError (List Nat) :=
  match mapMExcept (encodeChunk vocab ranks) (splitRuns s) with
  | .ok css => .ok (concatAll css)
  | .error e => .error e

/-- Modelled from the spec: reverse lookup of one token id; an id absent from
the vocabulary is the distinct input-error kind (spec section 4.3). -/
def decodeOne (vocab : Vocab) (id : Nat) : Except TokenizerError TokSym :=
  match lookupSym vocab id with
  | some sym => .ok sym
  | none => .error (.unknownTokenId id)

/-- Modelled from the spec: the decoder; look every id up in the reverse
vocabulary, concatenate the token symbols, and invert the byte-to-unicode map
character by character to recover the original bytes (spec section 4.3). -/
def decode (vocab : Vocab) (ids : List Nat) : Except TokenizerError (List Nat) :=
  match mapMExcept (decodeOne vocab) ids with
  | .ok syms => .ok ((concatAll syms).map unicodeToByte)
  | .error e => .error e

/-- The token counter of src/src/index.js lines 612-616: the length of the
encoding, with no independent counting algorithm. -/
def tokens (vocab : Vocab) (ranks : Ranks) (s : List Nat) :
    Except TokenizerError Nat :=
  match encode vocab ranks s with
  | .ok ids => .ok ids.length
  | .error e => .error e

/-- Whether an Except result is a success. -/
def exceptOk {α : Type} : Except TokenizerError α → Bool
  | .ok _ => true
  | .error _ => false

/-- Whether an Except result is an error of the input-error kind (an unknown
token id), as opposed to a success or a fatal integrity error. -/
def isInputErrorResult {α : Type} : Except TokenizerError α → Bool
  | .error (.unknownTokenId _) => true
  | _ => false

/-- No two vocabulary entries share a token string. -/
def keysNodup : Vocab → Bool
  | [] => true
  | (s, _) :: rest => !(rest.any fun e => e.1 == s) && keysNodup rest

/-- No two vocabulary entries share a token id. -/
def idsNodup : Vocab → Bool
  | [] => true
  | (_, i) :: rest => !(rest.any fun e => e.2 == i) && idsNodup rest

/-- The vocabulary is bijective on its domain: every token string and every id
occurs at most once (spec section 3). -/
def vocabConsistent (v : Vocab) : Bool :=
  keysNodup v && idsNodup v

/-- Coverage of the tables (spec section 4.2 step 4): every single-byte symbol
and every merge result has a vocabulary entry, so the final lookup always
succeeds by construction. -/
def coverageOk (vocab : Vocab) (ranks : Ranks) : Bool :=
  ((List.range 256).all fun b => (lookupId vocab [byteToUnicode b]).isSome) &&
  (ranks.all fun pr => (lookupId vocab (pr.1.1 ++ pr.1.2)).isSome)

/-- The OpenAI client of src/src/index.js lines 19-38: an API key, an optional
organization id, and an engine name, fixed at construction.  JavaScript
strings are modelled as lists of characters. -/
structure OpenAIClient where
  api_key : List Char
  organization_id : Option (List Char)
  engine : List Char

/-- The encode method of src/src/index.js lines 575-579 as a call on the
client state: it delegates to the tokenizer and reads or writes no client
field, so it returns the client unchanged alongside the result. -/
def OpenAIClient.encodeCall (c : OpenAIClient) (vocab : Vocab) (ranks : Ranks)
    (text : List Nat) : Except TokenizerError (List Nat) × OpenAIClient :=
  (encode vocab ranks text, c)

/-- The decode method of src/src/index.js lines 594-598 as a call on the
client state. -/
def OpenAIClient.decodeCall (c : OpenAIClient) (vocab : Vocab)
    (ids : List Nat) : Except TokenizerError (List Nat) × OpenAIClient :=
  (decode vocab ids, c)

/-- The tokens method of src/src/index.js lines 612-616 as a call on the
client state: the length of this.encode(text). -/
def OpenAIClient.tokensCall (c : OpenAIClient) (vocab : Vocab) (ranks : Ranks)
    (text : List Nat) : Except TokenizerError Nat × OpenAIClient :=
  (tokens vocab ranks text, c)

/-- A request body as passed to complete / search / classificate / answer:
the engine and model properties the code may delete, plus all remaining
properties as an association list of key-value pairs (src/src/index.js lines
191-205, 247-261, 327-341, 411-425).  JavaScript string values are modelled
as lists of characters. -/
structure RequestBody where
  engine : Option (List Char)
  model : Option (List Char)
  rest : List (List Char × List Char)
deriving DecidableEq

/-- JavaScript truthiness of an optional string property: an absent property
and the empty string are falsy, every other string is truthy. -/
def jsTruthy : Option (List Char) → Bool
  | none => false
  | some s => !s.isEmpty

/-- Mutation that complete (src/src/index.js lines 195-198) performs on the
caller-supplied body: delete body.engine, but only when body.engine is
truthy. -/
def completeBodyEffect (b : RequestBody) : RequestBody :=
  if jsTruthy b.engine then { b with engine := none } else b

/-- Mutation that search (src/src/index.js lines 251-254) performs on the
caller-supplied body: identical to complete's. -/
def searchBodyEffect (b : RequestBody) : RequestBody :=
  if jsTruthy b.engine then { b with engine := none } else b

/-- Mutation that classificate (src/src/index.js lines 331-334) performs on
the caller-supplied body: delete body.model, but only when body.model is
truthy. -/
def classificateBodyEffect (b : RequestBody) : RequestBody :=
  if jsTruthy b.model then { b with model := none } else b

/-- Mutation that answer (src/src/index.js lines 415-418) performs on the
caller-supplied body: identical to classificate's. -/
def answerBodyEffect (b : RequestBody) : RequestBody :=
  if jsTruthy b.model then { b with model := none } else b

/-- UTF-8 bytes of the test string of __tests__/unit/token.test.js line 7,
reading Hello comma space world exclamation-mark. -/
def helloWorldBytes : List Nat :=
  [72, 101, 108, 108, 111, 44, 32, 119, 111, 114, 108, 100, 33]

/-- UTF-8 bytes of the test string of __tests__/unit/token.test.js line 13,
reading My name is Fulano. -/
def myNameBytes : List Nat :=
  [77, 121, 32, 110, 97, 109, 101, 32, 105, 115, 32, 70, 117, 108, 97, 110, 111]

/-- UTF-8 bytes of the test string of __tests__/unit/token.test.js line 19,
reading One plus one equals two. -/
def onePlusBytes : List Nat :=
  [79, 110, 101, 32, 112, 108, 117, 115, 32, 111, 110, 101, 32, 101, 113,
   117, 97, 108, 115, 32, 116, 119, 111]

/-- Witness vocabulary mapping every single-byte symbol to its byte value. -/
def fullVocab : Vocab :=
  (List.range 256).map (fun b => ([byteToUnicode b], b))

/-- Small witness vocabulary: the symbols for bytes 104 and 105 and their
merge result. -/
def tinyVocab : Vocab :=
  [([104], 0), ([105], 1), ([104, 105], 2)]

/-- Small witness merge-rank table merging the symbols for bytes 104 and
105. -/
def tinyRanks : Ranks :=
  [(([104], [105]), 0)]

/-- Witness vocabulary of five single-byte symbols for bytes 104, 105, 32,
110, 111. -/
def fiveVocab : Vocab :=
  [([104], 0), ([105], 1), ([288], 2), ([110], 3), ([111], 4)]

/-- Modelled from the spec: the pre-tokenization pattern of the reference
implementation, refined over splitRuns by attaching an optional single
leading space to a following word or number run.  The spec's own known
vectors (section 8) force this refinement: the thirteen-byte string for
Hello comma space world bang must encode to only four tokens, so the space
cannot form a chunk of its own and must join the word after it.  Runs of
several spaces are not refined further (no known vector constrains them). -/
def splitRunsRef : List Nat → List (List Nat)
  | [] => []
  | b :: rest =>
    match splitRunsRef rest with
    | (c :: cs) :: groups =>
      if (b == 32 && (byteClass c == 0 || byteClass c == 1)) ||
         byteClass b == byteClass c then (b :: c :: cs) :: groups
      else [b] :: (c :: cs) :: groups
    | groups => [b] :: groups

/-- Modelled from the spec: the encoder of section 4.2 over the reference
pre-tokenization pattern; identical pipeline to encode (split, byte-level
symbols, greedy ranked merges, vocabulary lookup, concatenation in chunk
order) with splitRunsRef in place of splitRuns. -/
def encodeRef (vocab : Vocab) (ranks : Ranks) (s : List Nat) :
    Except TokenizerError (List Nat) :=
  match mapMExcept (encodeChunk vocab ranks) (splitRunsRef s) with
  | .ok css => .ok (concatAll css)
  | .error e => .error e

/-- Modelled from the spec: a fragment of the reference merge-rank table,
which is a generated data asset distributed with the library and absent from
the repository sources (spec sections 2, 6).  The fragment holds the merge
chains the three known-vector inputs exercise: each chunk of those inputs is
merged left to right into its final token symbol, except the rare-word chunk
space-F-u-l-a-n-o, which merges into the two symbols space-F-u-l and a-n-o
exactly as the reference tokenizer splits rare words. -/
def refRanks : Ranks :=
  [(([72], [101]), 0), (([72, 101], [108]), 1), (([72, 101, 108], [108]), 2),
   (([72, 101, 108, 108], [111]), 3),
   (([288], [119]), 4), (([288, 119], [111]), 5), (([288, 119, 111], [114]), 6),
   (([288, 119, 111, 114], [108]), 7), (([288, 119, 111, 114, 108], [100]), 8),
   (([77], [121]), 9),
   (([288], [110]), 10), (([288, 110], [97]), 11), (([288, 110, 97], [109]), 12),
   (([288, 110, 97, 109], [101]), 13),
   (([288], [105]), 14), (([288, 105], [115]), 15),
   (([288], [70]), 16), (([288, 70], [117]), 17), (([288, 70, 117], [108]), 18),
   (([97], [110]), 19), (([97, 110], [111]), 20),
   (([79], [110]), 21), (([79, 110], [101]), 22),
   (([288], [112]), 23), (([288, 112], [108]), 24), (([288, 112, 108], [117]), 25),
   (([288, 112, 108, 117], [115]), 26),
   (([288], [111]), 27), (([288, 111], [110]), 28), (([288, 111, 110], [101]), 29),
   (([288], [101]), 30), (([288, 101], [113]), 31), (([288, 101, 113], [117]), 32),
   (([288, 101, 113, 117], [97]), 33), (([288, 101, 113, 117, 97], [108]), 34),
   (([288, 101, 113, 117, 97, 108], [115]), 35),
   (([288], [116]), 36), (([288, 116], [119]), 37), (([288, 116, 119], [111]), 38)]

/-- Modelled from the spec: the fragment of the reference vocabulary holding
the final token symbols the three known-vector inputs produce under refRanks
(the full vocabulary is the same absent data asset as refRanks). -/
def refVocab : Vocab :=
  [([72, 101, 108, 108, 111], 0), ([44], 1), ([288, 119, 111, 114, 108, 100], 2),
   ([33], 3), ([77, 121], 4), ([288, 110, 97, 109, 101], 5), ([288, 105, 115], 6),
   ([288, 70, 117, 108], 7), ([97, 110, 111], 8), ([79, 110, 101], 9),
   ([288, 112, 108, 117, 115], 10), ([288, 111, 110, 101], 11),
   ([288, 101, 113, 117, 97, 108, 115], 12), ([288, 116, 119, 111], 13)]

theorem concatAll_append {α : Type} (xs ys : List (List α)) :
    concatAll (xs ++ ys) = concatAll xs ++ concatAll ys := by
  induction xs with
  | nil => rfl
  | cons x xs ih => simp [concatAll, ih, List.append_assoc]

theorem splitRuns_concat (s : List Nat) : concatAll (splitRuns s) = s := by
  induction s with
  | nil => rfl
  | cons b rest ih =>
    simp only [splitRuns]
    split
    · rename_i c cs groups heq
      rw [heq] at ih
      split
      · simpa [concatAll] using ih
      · simpa [concatAll] using ih
    · simp [concatAll, ih]

theorem mergePair_concat (p : TokSym × TokSym) (l : List TokSym) :
    concatAll (mergePair p l) = concatAll l := by
  induction l using mergePair.induct p with
  | case1 => rfl
  | case2 a => rfl
  | case3 a b rest h ih => simp [mergePair, h, concatAll, ih, List.append_assoc]
  | case4 a b rest h ih => simp [mergePair, h, concatAll, ih]

theorem mergePair_mem (p : TokSym × TokSym) (l : List TokSym) (x : TokSym)
    (hx : x ∈ mergePair p l) : x ∈ l ∨ x = p.1 ++ p.2 := by
  induction l using mergePair.induct p with
  | case1 => simp [mergePair] at hx
  | case2 a => simp [mergePair] at hx; simp [hx]
  | case3 a b rest h ih =>
    rw [mergePair, if_pos h] at hx
    rcases List.mem_cons.1 hx with rfl | hx
    · right
      simp only [Bool.and_eq_true, beq_iff_eq] at h
      rw [h.1, h.2]
    · rcases ih hx with hmem | heq
      · left; simp [hmem]
      · right; exact heq
  | case4 a b rest h ih =>
    rw [mergePair, if_neg h] at hx
    rcases List.mem_cons.1 hx with rfl | hx
    · left; simp
    · rcases ih hx with hmem | heq
      · left; simp only [List.mem_cons] at hmem ⊢; tauto
      · right; exact heq

theorem rankOf_lookup_mem (ranks : Ranks) (p : TokSym × TokSym) (r : Nat)
    (h : rankOf ranks p = some r) : (p, r) ∈ ranks := by
  induction ranks with
  | nil => simp [rankOf] at h
  | cons e rest ih =>
    obtain ⟨q, rq⟩ := e
    rw [rankOf] at h
    split at h
    · rename_i hq
      simp only [beq_iff_eq] at hq
      injection h with h
      simp [hq, h]
    · simp [ih h]

theorem bestPairAux_sound (ranks : Ranks) (ps : List (TokSym × TokSym))
    (acc : Option ((TokSym × TokSym) × Nat)) (p : TokSym × TokSym) (rp : Nat)
    (hacc : ∀ q rq, acc = some (q, rq) → rankOf ranks q = some rq)
    (h : bestPairAux ranks ps acc = some (p, rp)) : rankOf ranks p = some rp := by
  induction ps generalizing acc with
  | nil => exact hacc p rp h
  | cons q ps ih =>
    simp only [bestPairAux] at h
    cases hr : rankOf ranks q with
    | none =>
      simp only [hr] at h
      exact ih acc hacc h
    | some r =>
      cases acc with
      | none =>
        simp only [hr] at h
        refine ih _ ?_ h
        intro a b hab
        injection hab with hab
        rw [Prod.mk.injEq] at hab
        obtain ⟨rfl, rfl⟩ := hab
        exact hr
      | some e =>
        obtain ⟨q0, rq0⟩ := e
        simp only [hr] at h
        by_cases hlt : r < rq0
        · rw [if_pos hlt] at h
          refine ih _ ?_ h
          intro a b hab
          injection hab with hab
          rw [Prod.mk.injEq] at hab
          obtain ⟨rfl, rfl⟩ := hab
          exact hr
        · rw [if_neg hlt] at h
          refine ih _ ?_ h
          intro a b hab
          injection hab with hab
          rw [Prod.mk.injEq] at hab
          obtain ⟨rfl, rfl⟩ := hab
          exact hacc q0 rq0 rfl

theorem bestPair_sound (ranks : Ranks) (syms : List TokSym) (p : TokSym × TokSym)
    (h : bestPair ranks syms = some p) : ∃ r, rankOf ranks p = some r := by
  rw [bestPair] at h
  cases hb : bestPairAux ranks (adjPairs syms) none with
  | none => simp [hb] at h
  | some e =>
    obtain ⟨q, rq⟩ := e
    rw [hb] at h
    simp only [Option.map_some'] at h
    injection h with h
    rw [← h]
    exact ⟨rq, bestPairAux_sound ranks (adjPairs syms) none q rq (by intro a b hab; simp at hab) hb⟩

theorem lookupId_mem_snd (v : Vocab) (sym : TokSym) (id : Nat)
    (h : lookupId v sym = some id) : ∃ s, (s, id) ∈ v := by
  induction v with
  | nil => simp [lookupId] at h
  | cons e rest ih =>
    obtain ⟨s, i⟩ := e
    rw [lookupId] at h
    split at h
    · injection h with h
      exact ⟨s, by simp [h]⟩
    · obtain ⟨s1, hs1⟩ := ih h
      exact ⟨s1, by simp [hs1]⟩

theorem idsNodup_head (s : TokSym) (i : Nat) (rest : Vocab)
    (h : idsNodup ((s, i) :: rest) = true) :
    (∀ e ∈ rest, e.2 ≠ i) ∧ idsNodup rest = true := by
  rw [idsNodup] at h
  simp only [Bool.and_eq_true, Bool.not_eq_true', List.any_eq_false, beq_iff_eq] at h
  exact ⟨h.1, h.2⟩

theorem lookupSym_lookupId (v : Vocab) (hnd : idsNodup v = true) (sym : TokSym)
    (id : Nat) (h : lookupId v sym = some id) : lookupSym v id = some sym := by
  induction v with
  | nil => simp [lookupId] at h
  | cons e rest ih =>
    obtain ⟨s, i⟩ := e
    obtain ⟨hne, hrest⟩ := idsNodup_head s i rest hnd
    rw [lookupId] at h
    rw [lookupSym]
    split at h
    · rename_i hs
      simp only [beq_iff_eq] at hs
      injection h with h
      rw [if_pos (by simp [h]), hs]
    · have hih := ih hrest h
      obtain ⟨s1, hs1⟩ := lookupId_mem_snd rest sym id h
      have : i ≠ id := by
        intro hcontra
        exact hne (s1, id) hs1 (by simp [hcontra])
      rw [if_neg (by simp [this])]
      exact hih

theorem mapMExcept_append_of_ok {α β : Type} (f : α → Except TokenizerError β)
    (l1 l2 : List α) (b1 b2 : List β)
    (h1 : mapMExcept f l1 = .ok b1) (h2 : mapMExcept f l2 = .ok b2) :
    mapMExcept f (l1 ++ l2) = .ok (b1 ++ b2) := by
  induction l1 generalizing b1 with
  | nil =>
    rw [mapMExcept] at h1
    injection h1 with h1
    rw [← h1]
    simpa using h2
  | cons a as ih =>
    rw [mapMExcept] at h1
    rw [List.cons_append, mapMExcept]
    cases hfa : f a with
    | error e => rw [hfa] at h1; simp at h1
    | ok b =>
      rw [hfa] at h1
      cases has : mapMExcept f as with
      | error e => rw [has] at h1; simp at h1
      | ok bs =>
        rw [has] at h1
        injection h1 with h1
        rw [ih bs has]
        rw [← h1]
        simp

set_option maxRecDepth 4096 in
theorem unicodeToByte_byteToUnicode : ∀ b < 256, unicodeToByte (byteToUnicode b) = b := by
  decide

theorem byteToUnicode_large (b : Nat) (hb : 256 ≤ b) : byteToUnicode b = 323 := by
  rw [byteToUnicode]
  rw [if_neg (by unfold bytePrintable; omega), if_neg (by omega), if_neg (by omega)]

theorem byteToUnicode_surj_small (b : Nat) :
    ∃ c < 256, byteToUnicode b = byteToUnicode c := by
  by_cases hb : b < 256
  · exact ⟨b, hb, rfl⟩
  · refine ⟨173, by omega, ?_⟩
    rw [byteToUnicode_large b (by omega)]
    rfl

theorem mapMExcept_ok_of_all {α β : Type} (f : α → Except TokenizerError β)
    (l : List α) (h : ∀ a ∈ l, ∃ b, f a = .ok b) :
    ∃ bs, mapMExcept f l = .ok bs := by
  induction l with
  | nil => exact ⟨[], rfl⟩
  | cons a as ih =>
    obtain ⟨b, hb⟩ := h a (by simp)
    obtain ⟨bs, hbs⟩ := ih (fun x hx => h x (by simp [hx]))
    exact ⟨b :: bs, by rw [mapMExcept, hb, hbs]⟩

theorem mapMExcept_decodeOne_encodeOne (v : Vocab) (hnd : idsNodup v = true) :
    ∀ (syms : List TokSym) (cids : List Nat),
      mapMExcept (encodeOne v) syms = .ok cids →
      mapMExcept (decodeOne v) cids = .ok syms := by
  intro syms
  induction syms with
  | nil =>
    intro cids h
    rw [mapMExcept] at h
    injection h with h
    rw [← h]
    rfl
  | cons sym syms ih =>
    intro cids h
    rw [mapMExcept] at h
    cases hone : encodeOne v sym with
    | error e => rw [hone] at h; simp at h
    | ok id =>
      rw [hone] at h
      cases hrest : mapMExcept (encodeOne v) syms with
      | error e => rw [hrest] at h; simp at h
      | ok ids =>
        rw [hrest] at h
        injection h with h
        have hlook : lookupId v sym = some id := by
          rw [encodeOne] at hone
          cases hl : lookupId v sym with
          | none => rw [hl] at hone; simp at hone
          | some j => rw [hl] at hone; injection hone with hone; rw [hone]
        rw [← h, mapMExcept, decodeOne, lookupSym_lookupId v hnd sym id hlook,
            ih ids hrest]

theorem concatAll_singletons (chunk : List Nat) :
    concatAll (chunk.map fun b => [byteToUnicode b]) = chunk.map byteToUnicode := by
  induction chunk with
  | nil => rfl
  | cons b rest ih => simp [concatAll, ih]

theorem bpeRun_concat (ranks : Ranks) (fuel : Nat) (syms : List TokSym) :
    concatAll (bpeRun ranks fuel syms) = concatAll syms := by
  induction fuel generalizing syms with
  | zero => rfl
  | succ f ih =>
    rw [bpeRun]
    cases hp : bestPair ranks syms with
    | none => rfl
    | some p => rw [ih (mergePair p syms), mergePair_concat]

theorem encodeChunk_decodes (v : Vocab) (ranks : Ranks) (hnd : idsNodup v = true)
    (chunk : List Nat) (cids : List Nat)
    (h : encodeChunk v ranks chunk = .ok cids) :
    ∃ syms, mapMExcept (decodeOne v) cids = .ok syms ∧
      concatAll syms = chunk.map byteToUnicode := by
  rw [encodeChunk] at h
  refine ⟨bpeRun ranks (chunk.map fun b => [byteToUnicode b]).length
    (chunk.map fun b => [byteToUnicode b]), ?_, ?_⟩
  · exact mapMExcept_decodeOne_encodeOne v hnd _ cids h
  · rw [bpeRun_concat, concatAll_singletons]

theorem decode_chunks (v : Vocab) (ranks : Ranks) (hnd : idsNodup v = true) :
    ∀ (gs : List (List Nat)) (css : List (List Nat)),
      mapMExcept (encodeChunk v ranks) gs = .ok css →
      ∃ syms, mapMExcept (decodeOne v) (concatAll css) = .ok syms ∧
        concatAll syms = (concatAll gs).map byteToUnicode := by
  intro gs
  induction gs with
  | nil =>
    intro css h
    rw [mapMExcept] at h
    injection h with h
    rw [← h]
    exact ⟨[], rfl, rfl⟩
  | cons g gs ih =>
    intro css h
    rw [mapMExcept] at h
    cases hg : encodeChunk v ranks g with
    | error e => rw [hg] at h; simp at h
    | ok cs =>
      rw [hg] at h
      cases hgs : mapMExcept (encodeChunk v ranks) gs with
      | error e => rw [hgs] at h; simp at h
      | ok css1 =>
        rw [hgs] at h
        injection h with h
        obtain ⟨syms1, hs1, hc1⟩ := encodeChunk_decodes v ranks hnd g cs hg
        obtain ⟨syms2, hs2, hc2⟩ := ih css1 hgs
        refine ⟨syms1 ++ syms2, ?_, ?_⟩
        · rw [← h]
          show mapMExcept (decodeOne v) (concatAll (cs :: css1)) = Except.ok (syms1 ++ syms2)
          rw [concatAll]
          exact mapMExcept_append_of_ok (decodeOne v) cs (concatAll css1) syms1 syms2 hs1 hs2
        · rw [concatAll_append, hc1, hc2, concatAll, List.map_append]

theorem map_unicode_inv (s : List Nat) (h : ∀ b ∈ s, b < 256) :
    (s.map byteToUnicode).map unicodeToByte = s := by
  induction s with
  | nil => rfl
  | cons b rest ih =>
    simp only [List.map_cons, List.cons.injEq]
    exact ⟨unicodeToByte_byteToUnicode b (h b (by simp)),
      ih (fun x hx => h x (by simp [hx]))⟩

/-- C1: decode is an exact left inverse of encode; for every byte string s on
which encode succeeds, decoding the produced ids returns s, for any
vocabulary that is bijective on its domain as the spec requires. -/
theorem decode_encode_roundtrip (vocab : Vocab) (ranks : Ranks)
    (hnd : vocabConsistent vocab = true) (s ids : List Nat)
    (hbytes : ∀ b ∈ s, b < 256)
    (henc : encode vocab ranks s = .ok ids) :
    decode vocab ids = .ok s := by
  have hid : idsNodup vocab = true := by
    rw [vocabConsistent, Bool.and_eq_true] at hnd
    exact hnd.2
  rw [encode] at henc
  cases hm : mapMExcept (encodeChunk vocab ranks) (splitRuns s) with
  | error e => rw [hm] at henc; simp at henc
  | ok css =>
    rw [hm] at henc
    injection henc with henc
    obtain ⟨syms, hs, hc⟩ := decode_chunks vocab ranks hid (splitRuns s) css hm
    rw [splitRuns_concat] at hc
    rw [decode, ← henc, hs]
    show Except.ok ((concatAll syms).map unicodeToByte) = Except.ok s
    rw [hc, map_unicode_inv s hbytes]

/-- C1 witness: a concrete run of the round trip on the byte string for hi
with a three-entry vocabulary and one merge rule. -/
theorem decode_encode_roundtrip_witness :
    decode tinyVocab [2] = .ok [104, 105] :=
  decode_encode_roundtrip tinyVocab tinyRanks (by decide) [104, 105] [2]
    (by decide) (by rfl)

theorem coverage_singleton (vocab : Vocab) (ranks : Ranks)
    (hcov : coverageOk vocab ranks = true) (b : Nat) :
    (lookupId vocab [byteToUnicode b]).isSome = true := by
  rw [coverageOk, Bool.and_eq_true] at hcov
  obtain ⟨c, hc, heq⟩ := byteToUnicode_surj_small b
  rw [heq]
  exact List.all_eq_true.1 hcov.1 c (List.mem_range.2 hc)

theorem coverage_merge (vocab : Vocab) (ranks : Ranks)
    (hcov : coverageOk vocab ranks = true) (p : TokSym × TokSym) (r : Nat)
    (hr : rankOf ranks p = some r) :
    (lookupId vocab (p.1 ++ p.2)).isSome = true := by
  rw [coverageOk, Bool.and_eq_true] at hcov
  exact List.all_eq_true.1 hcov.2 (p, r) (rankOf_lookup_mem ranks p r hr)

theorem bpeRun_preserves_coverage (vocab : Vocab) (ranks : Ranks) (fuel : Nat)
    (syms : List TokSym)
    (hcov : coverageOk vocab ranks = true)
    (h : ∀ sym ∈ syms, (lookupId vocab sym).isSome = true) :
    ∀ sym ∈ bpeRun ranks fuel syms, (lookupId vocab sym).isSome = true := by
  induction fuel generalizing syms with
  | zero => exact h
  | succ f ih =>
    rw [bpeRun]
    cases hp : bestPair ranks syms with
    | none => exact h
    | some p =>
      apply ih
      intro sym hsym
      rcases mergePair_mem p syms sym hsym with hmem | heq
      · exact h sym hmem
      · obtain ⟨r, hr⟩ := bestPair_sound ranks syms p hp
        rw [heq]
        exact coverage_merge vocab ranks hcov p r hr

theorem encodeChunk_total (vocab : Vocab) (ranks : Ranks)
    (hcov : coverageOk vocab ranks = true) (chunk : List Nat) :
    ∃ cids, encodeChunk vocab ranks chunk = .ok cids := by
  rw [encodeChunk]
  apply mapMExcept_ok_of_all
  intro sym hsym
  have hin : (lookupId vocab sym).isSome = true := by
    refine bpeRun_preserves_coverage vocab ranks _ _ hcov ?_ sym hsym
    intro x hx
    obtain ⟨b, _, rfl⟩ := List.mem_map.1 hx
    exact coverage_singleton vocab ranks hcov b
  rw [encodeOne]
  cases hl : lookupId vocab sym with
  | none => rw [hl] at hin; simp at hin
  | some id => exact ⟨id, rfl⟩

/-- C4: on any byte string at all (any UTF-8 input, the empty string
included), both encode and the token counter succeed without error, provided
the tables satisfy the coverage guarantee the spec states (every single-byte
symbol and every merge result has a vocabulary entry): byte-level fallback
gives universal coverage. -/
theorem encode_tokens_never_fail (vocab : Vocab) (ranks : Ranks)
    (hcov : coverageOk vocab ranks = true) (s : List Nat) :
    exceptOk (encode vocab ranks s) = true ∧
    exceptOk (tokens vocab ranks s) = true := by
  obtain ⟨css, hcss⟩ := mapMExcept_ok_of_all (encodeChunk vocab ranks)
    (splitRuns s) (fun g _ => encodeChunk_total vocab ranks hcov g)
  have hids : encode vocab ranks s = .ok (concatAll css) := by
    rw [encode, hcss]
  constructor
  · rw [hids]
    rfl
  · rw [tokens, hids]
    rfl

set_option maxRecDepth 8192 in
/-- C4 witness: with the full 256-entry single-byte vocabulary the coverage
check holds and encode and tokens succeed on a concrete input containing a
non-printable byte. -/
theorem encode_tokens_never_fail_witness :
    exceptOk (encode fullVocab [] [200, 10]) = true ∧
    exceptOk (tokens fullVocab [] [200, 10]) = true :=
  encode_tokens_never_fail fullVocab [] (by decide) [200, 10]

/-- C2: the token counter returns exactly the length of the encoding; whenever
encode yields an id sequence, tokens yields that sequence's length, with no
independent counting algorithm (src/src/index.js lines 612-616). -/
theorem tokens_is_length_of_encode (vocab : Vocab) (ranks : Ranks)
    (s ids : List Nat) (henc : encode vocab ranks s = .ok ids) :
    tokens vocab ranks s = .ok ids.length := by
  rw [tokens, henc]

/-- C2 witness: a concrete count. -/
theorem tokens_is_length_of_encode_witness :
    tokens tinyVocab tinyRanks [104, 105] = .ok 1 :=
  tokens_is_length_of_encode tinyVocab tinyRanks [104, 105] [2] (by rfl)

/-- C3: decode called on an id sequence containing an id absent from the
vocabulary fails with the distinct input-error kind (an unknown-token-id
error), not a generic crash and not the fatal integrity kind, so callers can
tell a bad supplied id from internal table corruption. -/
theorem decode_unknown_id_input_error (vocab : Vocab) (ids : List Nat)
    (id : Nat) (hmem : id ∈ ids) (habs : lookupSym vocab id = none) :
    isInputErrorResult (decode vocab ids) = true := by
  induction ids with
  | nil => cases hmem
  | cons a as ih =>
    cases ha : lookupSym vocab a with
    | none =>
      rw [decode, mapMExcept, decodeOne, ha]
      rfl
    | some sym =>
      have hid : id ∈ as := by
        rcases List.mem_cons.1 hmem with rfl | h
        · rw [habs] at ha
          cases ha
        · exact h
      have htail := ih hid
      rw [decode, mapMExcept, decodeOne, ha]
      rw [decode] at htail
      cases hm : mapMExcept (decodeOne vocab) as with
      | error e =>
        rw [hm] at htail
        cases e with
        | integrityError sym2 => simp [isInputErrorResult] at htail
        | unknownTokenId bad => rfl
      | ok syms =>
        rw [hm] at htail
        simp [isInputErrorResult] at htail

/-- C3 witness: decoding the unknown id 9 against the small vocabulary
produces the input-error kind. -/
theorem decode_unknown_id_input_error_witness :
    isInputErrorResult (decode tinyVocab [9]) = true :=
  decode_unknown_id_input_error tinyVocab [9] 9 (by decide) (by rfl)

/-- C5: the three known vectors; running the modelled reference encoder on
the modelled reference tables, encode of the bytes of Hello comma space world
bang yields a sequence of length 4, encode of the bytes of My name is Fulano
a sequence of length 5, and encode of the bytes of One plus one equals two a
sequence of length 5 — each computed by the full pipeline of pre-tokenization,
byte remapping, greedy ranked merging and vocabulary lookup. -/
theorem known_vectors :
    Except.map List.length (encodeRef refVocab refRanks helloWorldBytes) = .ok 4 ∧
    Except.map List.length (encodeRef refVocab refRanks myNameBytes) = .ok 5 ∧
    Except.map List.length (encodeRef refVocab refRanks onePlusBytes) = .ok 5 :=
  ⟨rfl, rfl, rfl⟩

/-- C6: encode is deterministic; calling the client's encode twice on the same
input, the second call made on the client state left by the first, yields the
same result both times (the method reads and writes no mutable state,
src/src/index.js lines 575-579). -/
theorem encode_deterministic (vocab : Vocab) (ranks : Ranks)
    (c : OpenAIClient) (s : List Nat) :
    (c.encodeCall vocab ranks s).1 =
      (((c.encodeCall vocab ranks s).2).encodeCall vocab ranks s).1 := rfl

/-- C7: encode applied to the empty string produces the empty id sequence. -/
theorem encode_empty (vocab : Vocab) (ranks : Ranks) :
    encode vocab ranks [] = .ok [] := rfl

/-- C8: merges never cross chunk boundaries; when the pre-tokenization split
of a concatenation is the concatenation of the splits (the boundary character
separates the two parts), encoding the whole equals concatenating the two
encodings. -/
theorem encode_chunk_concat (vocab : Vocab) (ranks : Ranks)
    (s1 s2 ids1 ids2 : List Nat)
    (hsplit : splitRuns (s1 ++ s2) = splitRuns s1 ++ splitRuns s2)
    (h1 : encode vocab ranks s1 = .ok ids1)
    (h2 : encode vocab ranks s2 = .ok ids2) :
    encode vocab ranks (s1 ++ s2) = .ok (ids1 ++ ids2) := by
  rw [encode] at h1 h2
  cases hm1 : mapMExcept (encodeChunk vocab ranks) (splitRuns s1) with
  | error e => rw [hm1] at h1; simp at h1
  | ok css1 =>
    rw [hm1] at h1
    injection h1 with h1
    cases hm2 : mapMExcept (encodeChunk vocab ranks) (splitRuns s2) with
    | error e => rw [hm2] at h2; simp at h2
    | ok css2 =>
      rw [hm2] at h2
      injection h2 with h2
      rw [encode, hsplit,
        mapMExcept_append_of_ok (encodeChunk vocab ranks) _ _ css1 css2 hm1 hm2]
      show Except.ok (concatAll (css1 ++ css2)) = Except.ok (ids1 ++ ids2)
      rw [concatAll_append, h1, h2]

/-- C8 witness: the byte strings for hi and for space-n-o, cut at the space
boundary. -/
theorem encode_chunk_concat_witness :
    encode fiveVocab [] ([104, 105] ++ [32, 110, 111]) = .ok ([0, 1] ++ [2, 3, 4]) :=
  encode_chunk_concat fiveVocab [] [104, 105] [32, 110, 111] [0, 1] [2, 3, 4]
    (by decide) (by rfl) (by rfl)

/-- C9: the tokenizer results depend only on the direct argument, not on any
client state; two clients constructed with different API keys, organization
ids or engines return identical results from encode, decode and tokens. -/
theorem tokenizer_ignores_client_state (vocab : Vocab) (ranks : Ranks)
    (c1 c2 : OpenAIClient) (s ids : List Nat) :
    (c1.encodeCall vocab ranks s).1 = (c2.encodeCall vocab ranks s).1 ∧
    (c1.decodeCall vocab ids).1 = (c2.decodeCall vocab ids).1 ∧
    (c1.tokensCall vocab ranks s).1 = (c2.tokensCall vocab ranks s).1 :=
  ⟨rfl, rfl, rfl⟩

/-- C10 counterexample: a body whose engine property is present but holds the
empty string (a falsy JavaScript value).  The property is present, yet
complete does not delete it: the code only deletes under a truthiness test
(src/src/index.js line 195), so the claim that every body containing an
engine property has it deleted is false. -/
theorem complete_keeps_falsy_engine :
    (RequestBody.mk (some []) none []).engine.isSome = true ∧
    completeBodyEffect (RequestBody.mk (some []) none []) =
      RequestBody.mk (some []) none [] :=
  ⟨rfl, rfl⟩

/-- C10 amended: when the caller-supplied body carries a truthy (non-empty)
engine string, complete and search delete exactly that property, leaving the
model property and every other property unchanged; when engine is absent or
falsy the body is not mutated at all.  Likewise classificate and answer with
the model property. -/
theorem body_mutation_effects (b : RequestBody) :
    (jsTruthy b.engine = true →
      completeBodyEffect b = { b with engine := none } ∧
      searchBodyEffect b = { b with engine := none }) ∧
    (jsTruthy b.engine = false →
      completeBodyEffect b = b ∧ searchBodyEffect b = b) ∧
    (jsTruthy b.model = true →
      classificateBodyEffect b = { b with model := none } ∧
      answerBodyEffect b = { b with model := none }) ∧
    (jsTruthy b.model = false →
      classificateBodyEffect b = b ∧ answerBodyEffect b = b) := by
  refine ⟨fun ht => ⟨?_, ?_⟩, fun hf => ⟨?_, ?_⟩, fun ht => ⟨?_, ?_⟩, fun hf => ⟨?_, ?_⟩⟩
  · rw [completeBodyEffect, if_pos ht]
  · rw [searchBodyEffect, if_pos ht]
  · rw [completeBodyEffect, if_neg (by rw [hf]; exact Bool.false_ne_true)]
  · rw [searchBodyEffect, if_neg (by rw [hf]; exact Bool.false_ne_true)]
  · rw [classificateBodyEffect, if_pos ht]
  · rw [answerBodyEffect, if_pos ht]
  · rw [classificateBodyEffect, if_neg (by rw [hf]; exact Bool.false_ne_true)]
  · rw [answerBodyEffect, if_neg (by rw [hf]; exact Bool.false_ne_true)]

/-- C10 amended witness: a body with a truthy engine value has exactly that
property deleted by complete, and a body with a falsy engine value is left
entirely unchanged. -/
theorem body_mutation_effects_witness :
    completeBodyEffect (RequestBody.mk (some ['c']) (some ['m']) [(['t'], ['0'])]) =
      RequestBody.mk none (some ['m']) [(['t'], ['0'])] ∧
    completeBodyEffect (RequestBody.mk (some []) none []) =
      RequestBody.mk (some []) none [] :=
  ⟨((body_mutation_effects (RequestBody.mk (some ['c']) (some ['m'])
      [(['t'], ['0'])])).1 (by decide)).1,
   ((body_mutation_effects (RequestBody.mk (some []) none [])).2.1 (by decide)).1⟩
